import Mathlib

/-!
Verification of the emlearn audio feature-extraction core (`eml_audio.h`).

The C source is shallowly embedded:
* machine floats are modelled by exact arithmetic (`ℚ` for the purely
  rational computations, `ℝ` where the code uses `log10`/`powf`);
* in-place buffer mutation becomes explicit state passing: a function that
  mutates a caller buffer returns the final buffer contents together with
  its `EmlError` return code;
* the `EmlAudioBufferer` double buffer uses raw pointer swapping between two
  distinct allocations `buffer1`/`buffer2`; we model the pointer identity of
  the write/read targets by a `Bool` tag (`true` = `buffer1`) and the
  `NULL`-able `read_buffer` by `Option Bool`.
-/

namespace EmlAudio

/-- Error codes from `eml_common.h` used by `eml_audio.h`.  The spec's
"SizeMismatch" is `EmlSizeMismatch`; its "RangeError" is the code's
`EmlUnknownError` returned on filter-bin range violations. -/
inductive EmlError where
  | EmlOk : EmlError
  | EmlSizeMismatch : EmlError
  | EmlUnknownError : EmlError
deriving DecidableEq, Repr

open EmlError

/-- `EmlAudioBufferer` state.  `buffer1`/`buffer2` hold the two physical
buffers; `writeTag`/`readTag` model the `write_buffer`/`read_buffer`
pointers (`true` ↦ `buffer1`, `false` ↦ `buffer2`, `none` ↦ `NULL`). -/
structure EmlAudioBufferer where
  buffer_length : ℕ
  buffer1 : List ℚ
  buffer2 : List ℚ
  writeTag : Bool
  readTag : Option Bool
  write_offset : ℕ
deriving DecidableEq, Repr

/-- `eml_audio_bufferer_reset`: write target becomes `buffer1`,
read buffer becomes `NULL`, write offset 0. -/
def eml_audio_bufferer_reset (self : EmlAudioBufferer) : EmlAudioBufferer :=
  { self with writeTag := true, readTag := none, write_offset := 0 }

/-- `eml_audio_bufferer_add`: store the sample at `write_offset` in the
current write buffer, post-increment the offset, then check for the frame
boundary.  Return codes follow the C source: `-1` overflow, `1` ready,
`0` filling. -/
def eml_audio_bufferer_add (self : EmlAudioBufferer) (s : ℚ) :
    EmlAudioBufferer × ℤ :=
  let afterWrite : EmlAudioBufferer :=
    if self.writeTag then
      { self with buffer1 := self.buffer1.set self.write_offset s,
                  write_offset := self.write_offset + 1 }
    else
      { self with buffer2 := self.buffer2.set self.write_offset s,
                  write_offset := self.write_offset + 1 }
  if afterWrite.write_offset = self.buffer_length then
    if afterWrite.readTag ≠ none then
      -- consumer has not cleared it
      (afterWrite, -1)
    else
      ({ afterWrite with
          write_offset := 0,
          readTag := some afterWrite.writeTag,
          writeTag := !afterWrite.writeTag }, 1)
  else
    (afterWrite, 0)

/-- Iterate `eml_audio_bufferer_add` over a list of samples, collecting the
return codes in order. -/
def bufferer_add_all (self : EmlAudioBufferer) : List ℚ → EmlAudioBufferer × List ℤ
  | [] => (self, [])
  | x :: xs =>
      let r1 := eml_audio_bufferer_add self x
      let r2 := bufferer_add_all r1.1 xs
      (r2.1, r1.2 :: r2.2)

/-- `eml_audio_power_spectrogram`: writes
`out[i] = (1/n_fft) * |rfft[i]|^2` for each `i < spec_length` after checking
the size preconditions.  Returns the error code and the final contents of
`out` (unchanged when a precondition fails). -/
def eml_audio_power_spectrogram (rfft out : List ℚ) (n_fft : ℕ) :
    EmlError × List ℚ :=
  let spec_length : ℕ := 1 + n_fft / 2
  if ¬ (spec_length < rfft.length) then (EmlSizeMismatch, out)
  else if ¬ (out.length = spec_length) then (EmlSizeMismatch, out)
  else
    let scale : ℚ := 1 / (n_fft : ℚ)
    (EmlOk, (List.range spec_length).map (fun i => scale * |rfft.getD i 0| ^ 2))

/-- `eml_audio_mels_from_hz`: HTK mel scale, `2595 * log10(1 + hz/700)`. -/
noncomputable def eml_audio_mels_from_hz (hz : ℝ) : ℝ :=
  2595 * Real.logb 10 (1 + hz / 700)

/-- `eml_audio_mels_to_hz`: inverse HTK formula, `700 * (10^(mels/2595) - 1)`. -/
noncomputable def eml_audio_mels_to_hz (mels : ℝ) : ℝ :=
  700 * ((10 : ℝ) ^ (mels / 2595) - 1)

/-- `EmlAudioMel` configuration.  The C fields `n_mels`, `n_fft`,
`samplerate` are `int`; the frequencies are `float`, modelled by `ℝ`. -/
structure EmlAudioMel where
  n_mels : ℕ
  fmin : ℝ
  fmax : ℝ
  n_fft : ℕ
  samplerate : ℕ

/-- `mel_bin`: place `n_mels + 2` points evenly in mel space between
`mel(fmin)` and `mel(fmax)`, convert point `n` back to Hz and map it to an
FFT bin via `floor((n_fft+1) * hz / samplerate)`. -/
noncomputable def mel_bin (params : EmlAudioMel) (n : ℕ) : ℤ :=
  let melmin := eml_audio_mels_from_hz params.fmin
  let melmax := eml_audio_mels_from_hz params.fmax
  let melstep := (melmax - melmin) / ((params.n_mels : ℝ) + 1)
  let mel := melmin + (n : ℝ) * melstep
  let hz := eml_audio_mels_to_hz mel
  ⌊((params.n_fft : ℝ) + 1) * (hz / (params.samplerate : ℝ))⌋

/-- The value accumulated for filter `m` by the two inner loops of
`eml_audio_melspec`: rising slope over bins `[left, center)`, falling slope
over `[center, right)`; out-of-range reads return 0 (never exercised on the
paths the C code takes with in-range bins). -/
noncomputable def melFilterVal (params : EmlAudioMel) (spec : List ℝ) (m : ℕ) : ℝ :=
  let left := mel_bin params (m - 1)
  let center := mel_bin params m
  let right := mel_bin params (m + 1)
  (∑ k ∈ Finset.Ico left center,
      spec.getD k.toNat 0 * (((k : ℝ) - (left : ℝ)) / ((center : ℝ) - (left : ℝ)))) +
  (∑ k ∈ Finset.Ico center right,
      spec.getD k.toNat 0 * (((right : ℝ) - (k : ℝ)) / ((right : ℝ) - (center : ℝ))))

/-- The `for (m = 1; m < n_mels + 1; m++)` loop of `eml_audio_melspec`:
computes the three boundary bins of filter `m`, fails with
`EmlUnknownError` when `left < 0` or `right > max_bin`, otherwise stores
`melFilterVal` at `mels[m-1]` and continues.  Returns the error code and
the final contents of `mels`. -/
noncomputable def melspecLoop (params : EmlAudioMel) (spec : List ℝ)
    (mels : List ℝ) (m : ℕ) : EmlError × List ℝ :=
  if h : m < params.n_mels + 1 then
    let left := mel_bin params (m - 1)
    let right := mel_bin params (m + 1)
    let max_bin : ℤ := (1 + params.n_fft / 2 : ℕ)
    if left < 0 then (EmlUnknownError, mels)
    else if right > max_bin then (EmlUnknownError, mels)
    else melspecLoop params spec (mels.set (m - 1) (melFilterVal params spec m)) (m + 1)
  else (EmlOk, mels)
termination_by params.n_mels + 1 - m

/-- `eml_audio_melspec`: checks the two size preconditions, then runs the
filter loop from `m = 1`. -/
noncomputable def eml_audio_melspec (params : EmlAudioMel) (spec mels : List ℝ) :
    EmlError × List ℝ :=
  let max_bin : ℕ := 1 + params.n_fft / 2
  if ¬ (max_bin ≤ spec.length) then (EmlSizeMismatch, mels)
  else if ¬ (params.n_mels = mels.length) then (EmlSizeMismatch, mels)
  else melspecLoop params spec mels 1

/-! ## Power spectrogram -/

/-- C2: with `rfft.length > spec_length` and `out.length = spec_length`
(`spec_length = 1 + n_fft/2`), `eml_audio_power_spectrogram` returns
`EmlOk` and writes `out[i] = |rfft[i]|^2 / n_fft` for every
`i < spec_length`; for constant input every entry is the same value
`c^2 / n_fft`. -/
theorem power_spectrogram_correct (rfft out : List ℚ) (n_fft : ℕ)
    (h1 : 1 + n_fft / 2 < rfft.length) (h2 : out.length = 1 + n_fft / 2) :
    (eml_audio_power_spectrogram rfft out n_fft).1 = EmlError.EmlOk ∧
    ∀ i < 1 + n_fft / 2,
      (eml_audio_power_spectrogram rfft out n_fft).2.getD i 0
        = |rfft.getD i 0| ^ 2 / (n_fft : ℚ) := by
  unfold eml_audio_power_spectrogram
  simp only [h1, h2, not_true_eq_false, not_lt, if_false, ite_false, if_neg,
    not_false_iff]
  refine ⟨trivial, ?_⟩
  intro i hi
  simp [List.getD_eq_getElem?_getD, List.getElem?_map, List.getElem?_range hi,
    div_eq_inv_mul, one_div]

/-- Witness for `power_spectrogram_correct` at a constant input. -/
theorem power_spectrogram_correct_witness :
    1 + 16 / 2 < (List.replicate 10 (3 : ℚ)).length ∧
    (List.replicate 9 (0 : ℚ)).length = 1 + 16 / 2 ∧
    ((eml_audio_power_spectrogram (List.replicate 10 (3 : ℚ))
        (List.replicate 9 (0 : ℚ)) 16).1 = EmlError.EmlOk ∧
      ∀ i < 1 + 16 / 2,
        (eml_audio_power_spectrogram (List.replicate 10 (3 : ℚ))
            (List.replicate 9 (0 : ℚ)) 16).2.getD i 0
          = |(List.replicate 10 (3 : ℚ)).getD i 0| ^ 2 / (16 : ℚ)) :=
  ⟨by decide, by decide,
    power_spectrogram_correct (List.replicate 10 3) (List.replicate 9 0) 16
      (by decide) (by decide)⟩

/-- C7: when `rfft.length ≤ spec_length` or `out.length ≠ spec_length`,
`eml_audio_power_spectrogram` fails with `EmlSizeMismatch` and leaves `out`
unchanged. -/
theorem power_spectrogram_size_mismatch (rfft out : List ℚ) (n_fft : ℕ)
    (h : rfft.length ≤ 1 + n_fft / 2 ∨ out.length ≠ 1 + n_fft / 2) :
    eml_audio_power_spectrogram rfft out n_fft
      = (EmlError.EmlSizeMismatch, out) := by
  unfold eml_audio_power_spectrogram
  rcases h with h | h
  · simp [Nat.not_lt.mpr h]
  · rcases Nat.lt_or_ge (1 + n_fft / 2) rfft.length with h1 | h1
    · simp [h1, h]
    · simp [Nat.not_lt.mpr h1]

/-- Witness for `power_spectrogram_size_mismatch`: `out` one element too
short. -/
theorem power_spectrogram_size_mismatch_witness :
    ((List.replicate 8 (0 : ℚ)).length ≤ 1 + 16 / 2 ∨
      (List.replicate 8 (0 : ℚ)).length ≠ 1 + 16 / 2) ∧
    eml_audio_power_spectrogram (List.replicate 10 (3 : ℚ))
        (List.replicate 8 (0 : ℚ)) 16
      = (EmlError.EmlSizeMismatch, List.replicate 8 (0 : ℚ)) :=
  ⟨Or.inr (by decide),
    power_spectrogram_size_mismatch (List.replicate 10 3) (List.replicate 8 0)
      16 (Or.inr (by decide))⟩

/-- C10: when `n_fft > 0` and the call succeeds, every written output entry
is non-negative. -/
theorem power_spectrogram_nonneg (rfft out : List ℚ) (n_fft : ℕ)
    (hn : 0 < n_fft)
    (hok : (eml_audio_power_spectrogram rfft out n_fft).1 = EmlError.EmlOk) :
    ∀ i < 1 + n_fft / 2,
      0 ≤ (eml_audio_power_spectrogram rfft out n_fft).2.getD i 0 := by
  intro i hi
  unfold eml_audio_power_spectrogram at hok ⊢
  by_cases h1 : 1 + n_fft / 2 < rfft.length
  · by_cases h2 : out.length = 1 + n_fft / 2
    · simp only [h1, h2, not_true_eq_false, if_false, ite_false, if_neg,
        not_false_iff]
      simp [List.getD_eq_getElem?_getD, List.getElem?_map, List.getElem?_range hi]
      positivity
    · simp [h1, h2] at hok
  · simp [h1] at hok

/-- Witness for `power_spectrogram_nonneg`. -/
theorem power_spectrogram_nonneg_witness :
    0 < 16 ∧
    (eml_audio_power_spectrogram (List.replicate 10 (-3 : ℚ))
        (List.replicate 9 (0 : ℚ)) 16).1 = EmlError.EmlOk ∧
    ∀ i < 1 + 16 / 2,
      0 ≤ (eml_audio_power_spectrogram (List.replicate 10 (-3 : ℚ))
            (List.replicate 9 (0 : ℚ)) 16).2.getD i 0 :=
  ⟨by decide, by decide,
    power_spectrogram_nonneg (List.replicate 10 (-3)) (List.replicate 9 0) 16
      (by decide) (by decide)⟩

/-! ## Mel scale -/

/-- Shared helper: over exact real arithmetic the HTK mel round trip is the
identity whenever `1 + hz/700 > 0`. -/
theorem mels_to_hz_from_hz (hz : ℝ) (h : -700 < hz) :
    eml_audio_mels_to_hz (eml_audio_mels_from_hz hz) = hz := by
  unfold eml_audio_mels_to_hz eml_audio_mels_from_hz
  have h2595 : (2595 : ℝ) ≠ 0 := by norm_num
  rw [mul_div_cancel_left₀ _ h2595]
  have hx : (0 : ℝ) < 1 + hz / 700 := by linarith
  rw [Real.rpow_logb (by norm_num) (by norm_num) hx]
  ring

/-- C8: for `0 ≤ hz ≤ samplerate/2`, `mel_to_hz (hz_to_mel hz) = hz`
exactly, over real arithmetic. -/
theorem mels_roundtrip (samplerate hz : ℝ) (h0 : 0 ≤ hz)
    (h1 : hz ≤ samplerate / 2) :
    eml_audio_mels_to_hz (eml_audio_mels_from_hz hz) = hz :=
  mels_to_hz_from_hz hz (by linarith)

/-- Witness for `mels_roundtrip` at `hz = 0`. -/
theorem mels_roundtrip_witness :
    (0 : ℝ) ≤ 0 ∧ (0 : ℝ) ≤ 8000 / 2 ∧
    eml_audio_mels_to_hz (eml_audio_mels_from_hz 0) = 0 :=
  ⟨le_refl 0, by norm_num, mels_roundtrip 8000 0 (le_refl 0) (by norm_num)⟩

/-! ## Audio bufferer -/

/-- C4: on the `add` call that reaches `buffer_length`: with `read_buffer`
non-empty the call returns `-1` (Overflow), leaves the write offset at
`buffer_length`, and changes neither the write target nor `read_buffer`;
with `read_buffer` empty it returns `1` (Ready), publishes the just-filled
buffer as `read_buffer`, switches the write target and resets the offset. -/
theorem bufferer_add_boundary (st : EmlAudioBufferer) (s : ℚ)
    (hfull : st.write_offset + 1 = st.buffer_length) :
    (st.readTag ≠ none →
      (eml_audio_bufferer_add st s).2 = -1 ∧
      (eml_audio_bufferer_add st s).1.write_offset = st.buffer_length ∧
      (eml_audio_bufferer_add st s).1.writeTag = st.writeTag ∧
      (eml_audio_bufferer_add st s).1.readTag = st.readTag) ∧
    (st.readTag = none →
      (eml_audio_bufferer_add st s).2 = 1 ∧
      (eml_audio_bufferer_add st s).1.write_offset = 0 ∧
      (eml_audio_bufferer_add st s).1.writeTag = !st.writeTag ∧
      (eml_audio_bufferer_add st s).1.readTag = some st.writeTag) := by
  by_cases hw : st.writeTag <;>
    by_cases hr : st.readTag = none <;>
      simp [eml_audio_bufferer_add, hw, hr, hfull]

/-- Witness for `bufferer_add_boundary`: a two-sample buffer one sample
short of full, with an undrained read buffer. -/
theorem bufferer_add_boundary_witness :
    (1 : ℕ) + 1 = 2 ∧
    ((some false ≠ (none : Option Bool) →
        (eml_audio_bufferer_add ⟨2, [5, 0], [7, 8], true, some false, 1⟩ 9).2 = -1 ∧
        (eml_audio_bufferer_add ⟨2, [5, 0], [7, 8], true, some false, 1⟩ 9).1.write_offset = 2 ∧
        (eml_audio_bufferer_add ⟨2, [5, 0], [7, 8], true, some false, 1⟩ 9).1.writeTag = true ∧
        (eml_audio_bufferer_add ⟨2, [5, 0], [7, 8], true, some false, 1⟩ 9).1.readTag = some false) ∧
      (some false = (none : Option Bool) →
        (eml_audio_bufferer_add ⟨2, [5, 0], [7, 8], true, some false, 1⟩ 9).2 = 1 ∧
        (eml_audio_bufferer_add ⟨2, [5, 0], [7, 8], true, some false, 1⟩ 9).1.write_offset = 0 ∧
        (eml_audio_bufferer_add ⟨2, [5, 0], [7, 8], true, some false, 1⟩ 9).1.writeTag = !true ∧
        (eml_audio_bufferer_add ⟨2, [5, 0], [7, 8], true, some false, 1⟩ 9).1.readTag = some true)) :=
  ⟨rfl, bufferer_add_boundary ⟨2, [5, 0], [7, 8], true, some false, 1⟩ 9 rfl⟩

/-- One `add` strictly before the frame boundary while filling `buffer1`. -/
theorem bufferer_add_mid (L : ℕ) (b1 b2 : List ℚ) (i : ℕ) (x : ℚ)
    (h : i + 1 ≠ L) :
    eml_audio_bufferer_add ⟨L, b1, b2, true, none, i⟩ x
      = (⟨L, b1.set i x, b2, true, none, i + 1⟩, 0) := by
  simp [eml_audio_bufferer_add, h]

/-- The `add` that completes `buffer1` with `read_buffer` empty. -/
theorem bufferer_add_last (L : ℕ) (b1 b2 : List ℚ) (i : ℕ) (x : ℚ)
    (h : i + 1 = L) :
    eml_audio_bufferer_add ⟨L, b1, b2, true, none, i⟩ x
      = (⟨L, b1.set i x, b2, false, some true, 0⟩, 1) := by
  simp [eml_audio_bufferer_add, h]

/-- Filling invariant: from offset `i` into `buffer1` (read buffer empty),
adding `L - i` samples yields `L - i - 1` `Filling` codes then one `Ready`,
with `buffer1` holding the old prefix followed by the new samples. -/
theorem bufferer_fill_aux (L : ℕ) (b2 : List ℚ) (xs : List ℚ) :
    ∀ (b1 : List ℚ) (i : ℕ), b1.length = L → i + xs.length = L → xs ≠ [] →
      bufferer_add_all ⟨L, b1, b2, true, none, i⟩ xs
        = (⟨L, b1.take i ++ xs, b2, false, some true, 0⟩,
           List.replicate (xs.length - 1) 0 ++ [1]) := by
  induction xs with
  | nil => intro b1 i _ _ hne; exact absurd rfl hne
  | cons x rest ih =>
    intro b1 i hb1 hi _
    simp only [List.length_cons] at hi
    have hiL : i < b1.length := by rw [hb1]; omega
    by_cases hrest : rest = []
    · subst hrest
      have h1 : i + 1 = L := by simp only [List.length_nil] at hi; omega
      have hset : b1.set i x = b1.take i ++ [x] := by
        rw [List.set_eq_take_cons_drop x hiL]
        have hd : b1.drop (i + 1) = [] :=
          List.drop_eq_nil_of_le (by rw [hb1]; omega)
        rw [hd]
      simp [bufferer_add_all, bufferer_add_last L b1 b2 i x h1, hset]
    · have hrlen : 0 < rest.length := List.length_pos.mpr hrest
      have h1 : i + 1 ≠ L := by omega
      have hstep : (b1.set i x).take (i + 1) = b1.take i ++ [x] := by
        rw [List.set_eq_take_cons_drop x hiL,
          List.take_append_eq_append_take, List.take_take]
        have hlen : (b1.take i).length = i := List.length_take_of_le hiL.le
        rw [hlen]
        have hmin : min (i + 1) i = i := by omega
        rw [hmin]
        norm_num
      have hcall := ih (b1.set i x) (i + 1)
        (by rw [List.length_set, hb1]) (by omega) hrest
      simp only [bufferer_add_all, bufferer_add_mid L b1 b2 i x h1, hcall,
        hstep]
      have hn : rest.length - 1 + 1 = rest.length := by omega
      have hcode : List.replicate rest.length (0 : ℤ) ++ [1]
          = 0 :: (List.replicate (rest.length - 1) 0 ++ [1]) := by
        rw [← hn, List.replicate_succ]
        rfl
      rw [List.append_assoc]
      simp only [List.length_cons, Nat.add_sub_cancel, List.singleton_append]
      rw [hcode]

/-- C3: starting right after `reset`, with `buffer1` sized
`buffer_length > 0`, adding `buffer_length` samples returns
`buffer_length - 1` `Filling` (0) codes followed by one `Ready` (1), and
the published read buffer (`buffer1`) then holds exactly the samples
added, in order. -/
theorem bufferer_reset_fill (st : EmlAudioBufferer) (xs : List ℚ)
    (hlen : st.buffer1.length = st.buffer_length)
    (hpos : 0 < st.buffer_length)
    (hxs : xs.length = st.buffer_length) :
    (bufferer_add_all (eml_audio_bufferer_reset st) xs).2
        = List.replicate (st.buffer_length - 1) 0 ++ [1] ∧
    (bufferer_add_all (eml_audio_bufferer_reset st) xs).1.readTag = some true ∧
    (bufferer_add_all (eml_audio_bufferer_reset st) xs).1.buffer1 = xs := by
  have hne : xs ≠ [] := by
    intro h
    rw [h] at hxs
    simp at hxs
    omega
  have hfill := bufferer_fill_aux st.buffer_length st.buffer2 xs st.buffer1 0
    hlen (by omega) hne
  have hreset : eml_audio_bufferer_reset st
      = ⟨st.buffer_length, st.buffer1, st.buffer2, true, none, 0⟩ := rfl
  rw [hreset, hfill]
  simp [hxs]

/-- Witness for `bufferer_reset_fill`: `buffer_length = 4`,
samples `1, 2, 3, 4`. -/
theorem bufferer_reset_fill_witness :
    ((⟨4, [0, 0, 0, 0], [0, 0, 0, 0], false, some false, 3⟩ :
        EmlAudioBufferer).buffer1.length
      = (⟨4, [0, 0, 0, 0], [0, 0, 0, 0], false, some false, 3⟩ :
        EmlAudioBufferer).buffer_length) ∧
    ((bufferer_add_all
        (eml_audio_bufferer_reset
          ⟨4, [0, 0, 0, 0], [0, 0, 0, 0], false, some false, 3⟩)
        [1, 2, 3, 4]).2 = List.replicate (4 - 1) 0 ++ [1] ∧
      (bufferer_add_all
        (eml_audio_bufferer_reset
          ⟨4, [0, 0, 0, 0], [0, 0, 0, 0], false, some false, 3⟩)
        [1, 2, 3, 4]).1.readTag = some true ∧
      (bufferer_add_all
        (eml_audio_bufferer_reset
          ⟨4, [0, 0, 0, 0], [0, 0, 0, 0], false, some false, 3⟩)
        [1, 2, 3, 4]).1.buffer1 = [1, 2, 3, 4]) :=
  ⟨by decide,
    bufferer_reset_fill ⟨4, [0, 0, 0, 0], [0, 0, 0, 0], false, some false, 3⟩
      [1, 2, 3, 4] (by decide) (by decide) (by decide)⟩

/-! ## Mel filterbank -/

/-- Filter `m` violates the range check of `eml_audio_melspec`:
`left < 0` or `right > max_bin`. -/
def melViolation (params : EmlAudioMel) (m : ℕ) : Prop :=
  mel_bin params (m - 1) < 0 ∨
    mel_bin params (m + 1) > ((1 + params.n_fft / 2 : ℕ) : ℤ)

/-- The filter loop past its last index returns `EmlOk` with `mels`
untouched. -/
theorem melspecLoop_stop (params : EmlAudioMel) (spec mels : List ℝ) (m : ℕ)
    (h : ¬ m < params.n_mels + 1) :
    melspecLoop params spec mels m = (EmlError.EmlOk, mels) := by
  rw [melspecLoop]
  simp [h]

/-- One in-range iteration of the filter loop stores `melFilterVal` at
`mels[m-1]` and moves on to `m + 1`. -/
theorem melspecLoop_step (params : EmlAudioMel) (spec mels : List ℝ) (m : ℕ)
    (h : m < params.n_mels + 1)
    (hleft : ¬ mel_bin params (m - 1) < 0)
    (hright : ¬ mel_bin params (m + 1) > ((1 + params.n_fft / 2 : ℕ) : ℤ)) :
    melspecLoop params spec mels m
      = melspecLoop params spec (mels.set (m - 1) (melFilterVal params spec m))
          (m + 1) := by
  rw [melspecLoop]
  simp only [dif_pos h]
  rw [if_neg hleft, if_neg hright]

/-- An iteration whose filter violates the range check returns
`EmlUnknownError` with `mels` untouched. -/
theorem melspecLoop_viol (params : EmlAudioMel) (spec mels : List ℝ) (m : ℕ)
    (h : m < params.n_mels + 1) (hv : melViolation params m) :
    melspecLoop params spec mels m = (EmlError.EmlUnknownError, mels) := by
  rw [melspecLoop]
  simp only [dif_pos h]
  rcases hv with hl | hr
  · rw [if_pos hl]
  · by_cases hl : mel_bin params (m - 1) < 0
    · rw [if_pos hl]
    · rw [if_neg hl, if_pos hr]

/-- Loop invariant for the success path: with no violation from `m` to
`n_mels`, the loop returns `EmlOk`, preserves the length and the entries
below `m - 1`, and stores `melFilterVal` for each remaining filter. -/
theorem melspecLoop_ok (params : EmlAudioMel) (spec : List ℝ) :
    ∀ (k : ℕ) (mels : List ℝ) (m : ℕ), 1 ≤ m → params.n_mels + 1 - m = k →
      (∀ j, m ≤ j → j ≤ params.n_mels → ¬ melViolation params j) →
      (melspecLoop params spec mels m).1 = EmlError.EmlOk ∧
      (melspecLoop params spec mels m).2.length = mels.length ∧
      (∀ i, i < m - 1 →
        (melspecLoop params spec mels m).2.getD i 0 = mels.getD i 0) ∧
      (∀ j, m ≤ j → j ≤ params.n_mels → j - 1 < mels.length →
        (melspecLoop params spec mels m).2.getD (j - 1) 0
          = melFilterVal params spec j) := by
  intro k
  induction k with
  | zero =>
    intro mels m hm hk hnov
    rw [melspecLoop_stop params spec mels m (by omega)]
    exact ⟨rfl, rfl, fun i _ => rfl, fun j hj hj2 _ => absurd hj2 (by omega)⟩
  | succ k ih =>
    intro mels m hm hk hnov
    have hlt : m < params.n_mels + 1 := by omega
    have hnv : ¬ melViolation params m := hnov m le_rfl (by omega)
    have hleft : ¬ mel_bin params (m - 1) < 0 := fun h => hnv (Or.inl h)
    have hright : ¬ mel_bin params (m + 1) > ((1 + params.n_fft / 2 : ℕ) : ℤ) :=
      fun h => hnv (Or.inr h)
    rw [melspecLoop_step params spec mels m hlt hleft hright]
    obtain ⟨ih1, ih2, ih3, ih4⟩ := ih
      (mels.set (m - 1) (melFilterVal params spec m)) (m + 1)
      (by omega) (by omega)
      (fun j hj hj2 => hnov j (by omega) hj2)
    refine ⟨ih1, by rw [ih2, List.length_set], ?_, ?_⟩
    · intro i hi
      rw [ih3 i (by omega)]
      have hne : m - 1 ≠ i := by omega
      simp [List.getD_eq_getElem?_getD, List.getElem?_set, hne]
    · intro j hj hj2 hjlen
      rcases Nat.eq_or_lt_of_le hj with hjm | hjm
    -- j = m: the entry written this iteration survives the recursion
      · rw [ih3 (j - 1) (by omega)]
        rw [hjm]
        simp [List.getD_eq_getElem?_getD, List.getElem?_set, hjlen]
      · rw [ih4 j (by omega) hj2 (by rw [List.length_set]; omega)]

/-- Loop invariant for the failure path: with the first violation at `m₀`,
the loop returns `EmlUnknownError`, has stored `melFilterVal` for the
filters strictly before `m₀`, and leaves every entry from `m₀ - 1` on
unchanged. -/
theorem melspecLoop_err (params : EmlAudioMel) (spec : List ℝ) :
    ∀ (k : ℕ) (mels : List ℝ) (m m₀ : ℕ), 1 ≤ m → m ≤ m₀ →
      m₀ ≤ params.n_mels → params.n_mels + 1 - m = k →
      melViolation params m₀ →
      (∀ j, m ≤ j → j < m₀ → ¬ melViolation params j) →
      (melspecLoop params spec mels m).1 = EmlError.EmlUnknownError ∧
      (melspecLoop params spec mels m).2.length = mels.length ∧
      (∀ i, i < m - 1 →
        (melspecLoop params spec mels m).2.getD i 0 = mels.getD i 0) ∧
      (∀ j, m ≤ j → j < m₀ → j - 1 < mels.length →
        (melspecLoop params spec mels m).2.getD (j - 1) 0
          = melFilterVal params spec j) ∧
      (∀ i, m₀ - 1 ≤ i →
        (melspecLoop params spec mels m).2.getD i 0 = mels.getD i 0) := by
  intro k
  induction k with
  | zero =>
    intro mels m m₀ hm hmm hm0 hk hviol hfirst
    exfalso
    omega
  | succ k ih =>
    intro mels m m₀ hm hmm hm0 hk hviol hfirst
    have hlt : m < params.n_mels + 1 := by omega
    rcases Nat.eq_or_lt_of_le hmm with hmeq | hmlt
    · rw [← hmeq] at hviol
      rw [melspecLoop_viol params spec mels m hlt hviol]
      exact ⟨rfl, rfl, fun i _ => rfl,
        fun j hj hj2 _ => absurd hj (by omega), fun i _ => rfl⟩
    · have hnv : ¬ melViolation params m := hfirst m le_rfl hmlt
      have hleft : ¬ mel_bin params (m - 1) < 0 := fun h => hnv (Or.inl h)
      have hright :
          ¬ mel_bin params (m + 1) > ((1 + params.n_fft / 2 : ℕ) : ℤ) :=
        fun h => hnv (Or.inr h)
      rw [melspecLoop_step params spec mels m hlt hleft hright]
      obtain ⟨ih1, ih2, ih3, ih4, ih5⟩ := ih
        (mels.set (m - 1) (melFilterVal params spec m)) (m + 1) m₀
        (by omega) (by omega) hm0 (by omega) hviol
        (fun j hj hj2 => hfirst j (by omega) hj2)
      refine ⟨ih1, by rw [ih2, List.length_set], ?_, ?_, ?_⟩
      · intro i hi
        rw [ih3 i (by omega)]
        have hne : m - 1 ≠ i := by omega
        simp [List.getD_eq_getElem?_getD, List.getElem?_set, hne]
      · intro j hj hj2 hjlen
        rcases Nat.eq_or_lt_of_le hj with hjm | hjm
        · rw [ih3 (j - 1) (by omega)]
          rw [hjm]
          simp [List.getD_eq_getElem?_getD, List.getElem?_set, hjlen]
        · rw [ih4 j (by omega) hj2 (by rw [List.length_set]; omega)]
      · intro i hi
        rw [ih5 i hi]
        have hne : m - 1 ≠ i := by omega
        simp [List.getD_eq_getElem?_getD, List.getElem?_set, hne]

/-- The filter loop fails with `EmlUnknownError` exactly when some
remaining filter violates the range check. -/
theorem melspecLoop_err_iff (params : EmlAudioMel) (spec : List ℝ) :
    ∀ (k : ℕ) (mels : List ℝ) (m : ℕ), 1 ≤ m →
      params.n_mels + 1 - m = k →
      ((melspecLoop params spec mels m).1 = EmlError.EmlUnknownError ↔
        ∃ j, m ≤ j ∧ j ≤ params.n_mels ∧ melViolation params j) := by
  intro k
  induction k with
  | zero =>
    intro mels m hm hk
    rw [melspecLoop_stop params spec mels m (by omega)]
    constructor
    · intro h
      exact absurd h (by simp)
    · rintro ⟨j, hj1, hj2, _⟩
      exfalso
      omega
  | succ k ih =>
    intro mels m hm hk
    have hlt : m < params.n_mels + 1 := by omega
    by_cases hv : melViolation params m
    · rw [melspecLoop_viol params spec mels m hlt hv]
      exact ⟨fun _ => ⟨m, le_rfl, by omega, hv⟩, fun _ => rfl⟩
    · have hleft : ¬ mel_bin params (m - 1) < 0 := fun h => hv (Or.inl h)
      have hright :
          ¬ mel_bin params (m + 1) > ((1 + params.n_fft / 2 : ℕ) : ℤ) :=
        fun h => hv (Or.inr h)
      rw [melspecLoop_step params spec mels m hlt hleft hright,
        ih _ (m + 1) (by omega) (by omega)]
      constructor
      · rintro ⟨j, hj1, hj2, hj3⟩
        exact ⟨j, by omega, hj2, hj3⟩
      · rintro ⟨j, hj1, hj2, hj3⟩
        refine ⟨j, ?_, hj2, hj3⟩
        rcases Nat.eq_or_lt_of_le hj1 with hje | hje
        · exfalso
          rw [← hje] at hj3
          exact hv hj3
        · omega

/-- With both size preconditions satisfied, `eml_audio_melspec` is the
filter loop started at `m = 1`. -/
theorem melspec_preconds (params : EmlAudioMel) (spec mels : List ℝ)
    (h1 : 1 + params.n_fft / 2 ≤ spec.length)
    (h2 : params.n_mels = mels.length) :
    eml_audio_melspec params spec mels = melspecLoop params spec mels 1 := by
  unfold eml_audio_melspec
  simp [h1, h2]

/-- C1: under the size preconditions and with every filter's bins in
range, `eml_audio_melspec` succeeds and stores for each filter `m` the
unnormalized triangular aggregation `melFilterVal` at `mels[m-1]`. -/
theorem melspec_computes_filters (params : EmlAudioMel) (spec mels : List ℝ)
    (h1 : 1 + params.n_fft / 2 ≤ spec.length)
    (h2 : params.n_mels = mels.length)
    (hnov : ∀ j, 1 ≤ j → j ≤ params.n_mels → ¬ melViolation params j) :
    (eml_audio_melspec params spec mels).1 = EmlError.EmlOk ∧
    ∀ m, 1 ≤ m → m ≤ params.n_mels →
      (eml_audio_melspec params spec mels).2.getD (m - 1) 0
        = melFilterVal params spec m := by
  rw [melspec_preconds params spec mels h1 h2]
  obtain ⟨hok, _, _, hval⟩ := melspecLoop_ok params spec params.n_mels mels 1
    le_rfl (by omega) hnov
  exact ⟨hok, fun m hm1 hm2 => hval m hm1 hm2 (by omega)⟩

/-- C5: under the size preconditions, `eml_audio_melspec` fails with the
range-error code `EmlUnknownError` exactly when some filter's boundary
bins satisfy `left < 0` or `right > max_bin`. -/
theorem melspec_range_error_iff (params : EmlAudioMel) (spec mels : List ℝ)
    (h1 : 1 + params.n_fft / 2 ≤ spec.length)
    (h2 : params.n_mels = mels.length) :
    ((eml_audio_melspec params spec mels).1 = EmlError.EmlUnknownError ↔
      ∃ m, 1 ≤ m ∧ m ≤ params.n_mels ∧ melViolation params m) := by
  rw [melspec_preconds params spec mels h1 h2]
  exact melspecLoop_err_iff params spec params.n_mels mels 1 le_rfl (by omega)

/-- C6: when the first range violation is at filter `m₀`, the call fails
with the range error, the filters before `m₀` have already been written
with their computed values, and the entries from index `m₀ - 1` on are
untouched. -/
theorem melspec_partial_write (params : EmlAudioMel) (spec mels : List ℝ)
    (m₀ : ℕ)
    (h1 : 1 + params.n_fft / 2 ≤ spec.length)
    (h2 : params.n_mels = mels.length)
    (hm1 : 1 ≤ m₀) (hm2 : m₀ ≤ params.n_mels)
    (hviol : melViolation params m₀)
    (hfirst : ∀ j, 1 ≤ j → j < m₀ → ¬ melViolation params j) :
    (eml_audio_melspec params spec mels).1 = EmlError.EmlUnknownError ∧
    (∀ j, 1 ≤ j → j < m₀ →
      (eml_audio_melspec params spec mels).2.getD (j - 1) 0
        = melFilterVal params spec j) ∧
    (∀ i, m₀ - 1 ≤ i →
      (eml_audio_melspec params spec mels).2.getD i 0 = mels.getD i 0) := by
  rw [melspec_preconds params spec mels h1 h2]
  obtain ⟨e1, _, _, e4, e5⟩ := melspecLoop_err params spec params.n_mels mels
    1 m₀ le_rfl hm1 hm2 (by omega) hviol hfirst
  exact ⟨e1, fun j hj1 hj2 => e4 j hj1 hj2 (by omega), e5⟩

/-! ## Concrete `mel_bin` evaluations -/

/-- With `fmin = fmax = 0` every boundary bin is 0. -/
theorem mel_bin_fmin_fmax_zero (nm nf sr n : ℕ) :
    mel_bin ⟨nm, 0, 0, nf, sr⟩ n = 0 := by
  simp only [mel_bin, eml_audio_mels_from_hz, eml_audio_mels_to_hz]
  norm_num [Real.logb_one, Real.rpow_zero]

/-- With `fmin = 0` the lowest boundary bin is 0. -/
theorem mel_bin_zero_of_fmin_zero (params : EmlAudioMel)
    (h : params.fmin = 0) : mel_bin params 0 = 0 := by
  simp only [mel_bin, eml_audio_mels_from_hz, eml_audio_mels_to_hz, h]
  norm_num [Real.logb_one, Real.rpow_zero]

/-- The top boundary bin (`n = n_mels + 1`) lands exactly on `fmax`:
`floor((n_fft + 1) * fmax / samplerate)`. -/
theorem mel_bin_top (params : EmlAudioMel) (h : -700 < params.fmax) :
    mel_bin params (params.n_mels + 1)
      = ⌊((params.n_fft : ℝ) + 1) *
          (params.fmax / (params.samplerate : ℝ))⌋ := by
  simp only [mel_bin]
  have hne : ((params.n_mels : ℝ) + 1) ≠ 0 := by positivity
  have hstep : eml_audio_mels_from_hz params.fmin +
      ((params.n_mels + 1 : ℕ) : ℝ) *
        ((eml_audio_mels_from_hz params.fmax
            - eml_audio_mels_from_hz params.fmin)
          / ((params.n_mels : ℝ) + 1))
      = eml_audio_mels_from_hz params.fmax := by
    push_cast
    field_simp
  rw [hstep, mels_to_hz_from_hz params.fmax h]

/-- With `fmin = fmax = 0` no filter violates the range check. -/
theorem melViolation_fmin_fmax_zero (nm nf sr m : ℕ) :
    ¬ melViolation ⟨nm, 0, 0, nf, sr⟩ m := by
  intro hv
  rcases hv with hl | hr
  · rw [mel_bin_fmin_fmax_zero] at hl
    exact absurd hl (by norm_num)
  · rw [mel_bin_fmin_fmax_zero] at hr
    omega

/-- Witness for `melspec_computes_filters`: one filter, degenerate
`fmin = fmax = 0` (all bins 0, empty triangles). -/
theorem melspec_computes_filters_witness :
    (1 + (16 : ℕ) / 2 ≤ (List.replicate 9 (1 : ℝ)).length) ∧
    ((1 : ℕ) = ([(5 : ℝ)] : List ℝ).length) ∧
    ((eml_audio_melspec ⟨1, 0, 0, 16, 4200⟩
        (List.replicate 9 (1 : ℝ)) [(5 : ℝ)]).1 = EmlError.EmlOk ∧
      ∀ m, 1 ≤ m → m ≤ (1 : ℕ) →
        (eml_audio_melspec ⟨1, 0, 0, 16, 4200⟩
            (List.replicate 9 (1 : ℝ)) [(5 : ℝ)]).2.getD (m - 1) 0
          = melFilterVal ⟨1, 0, 0, 16, 4200⟩ (List.replicate 9 (1 : ℝ)) m) :=
  ⟨by norm_num, by norm_num,
    melspec_computes_filters ⟨1, 0, 0, 16, 4200⟩
      (List.replicate 9 (1 : ℝ)) [(5 : ℝ)] (by norm_num) (by norm_num)
      (fun j _ _ => melViolation_fmin_fmax_zero 1 16 4200 j)⟩

/-- Witness for `melspec_range_error_iff` at the same configuration. -/
theorem melspec_range_error_iff_witness :
    (1 + (16 : ℕ) / 2 ≤ (List.replicate 9 (1 : ℝ)).length) ∧
    ((1 : ℕ) = ([(5 : ℝ)] : List ℝ).length) ∧
    ((eml_audio_melspec ⟨1, 0, 0, 16, 4200⟩
        (List.replicate 9 (1 : ℝ)) [(5 : ℝ)]).1 = EmlError.EmlUnknownError ↔
      ∃ m, 1 ≤ m ∧ m ≤ (1 : ℕ) ∧ melViolation ⟨1, 0, 0, 16, 4200⟩ m) :=
  ⟨by norm_num, by norm_num,
    melspec_range_error_iff ⟨1, 0, 0, 16, 4200⟩
      (List.replicate 9 (1 : ℝ)) [(5 : ℝ)] (by norm_num) (by norm_num)⟩

/-- Witness for `melspec_partial_write`: `fmax = samplerate` makes the
first filter's `right` bin (17) exceed `max_bin` (9). -/
theorem melspec_partial_write_witness :
    (1 + (16 : ℕ) / 2 ≤ (List.replicate 9 (1 : ℝ)).length) ∧
    melViolation ⟨1, 0, 2100, 16, 2100⟩ 1 ∧
    ((eml_audio_melspec ⟨1, 0, 2100, 16, 2100⟩
        (List.replicate 9 (1 : ℝ)) [(5 : ℝ)]).1 = EmlError.EmlUnknownError ∧
      (∀ j, 1 ≤ j → j < 1 →
        (eml_audio_melspec ⟨1, 0, 2100, 16, 2100⟩
            (List.replicate 9 (1 : ℝ)) [(5 : ℝ)]).2.getD (j - 1) 0
          = melFilterVal ⟨1, 0, 2100, 16, 2100⟩ (List.replicate 9 (1 : ℝ)) j) ∧
      (∀ i, 1 - 1 ≤ i →
        (eml_audio_melspec ⟨1, 0, 2100, 16, 2100⟩
            (List.replicate 9 (1 : ℝ)) [(5 : ℝ)]).2.getD i 0
          = ([(5 : ℝ)] : List ℝ).getD i 0)) := by
  have hbin : mel_bin ⟨1, 0, 2100, 16, 2100⟩ 2 = 17 := by
    have h := mel_bin_top ⟨1, 0, 2100, 16, 2100⟩ (by norm_num)
    rw [h]
    norm_num
  have hviol : melViolation ⟨1, 0, 2100, 16, 2100⟩ 1 := by
    right
    rw [hbin]
    norm_num
  exact ⟨by norm_num, hviol,
    melspec_partial_write ⟨1, 0, 2100, 16, 2100⟩
      (List.replicate 9 (1 : ℝ)) [(5 : ℝ)] 1 (by norm_num) (by norm_num)
      le_rfl le_rfl hviol (fun j hj1 hj2 => absurd (lt_of_le_of_lt hj1 hj2)
        (lt_irrefl 1))⟩

/-! ## Ordering of the filter boundary bins -/

/-- `eml_audio_mels_to_hz` is monotone. -/
theorem mels_to_hz_mono {x y : ℝ} (h : x ≤ y) :
    eml_audio_mels_to_hz x ≤ eml_audio_mels_to_hz y := by
  unfold eml_audio_mels_to_hz
  have hp : (10 : ℝ) ^ (x / 2595) ≤ (10 : ℝ) ^ (y / 2595) := by
    apply (Real.rpow_le_rpow_left_iff (by norm_num : (1 : ℝ) < 10)).mpr
    linarith
  linarith

/-- With `0 ≤ fmin ≤ fmax` the boundary bins are monotone in `n`: the real
bin positions increase weakly, and `floor` preserves that. -/
theorem mel_bin_mono_step (params : EmlAudioMel)
    (h0 : 0 ≤ params.fmin) (h1 : params.fmin ≤ params.fmax) (n : ℕ) :
    mel_bin params n ≤ mel_bin params (n + 1) := by
  simp only [mel_bin]
  apply Int.floor_le_floor
  have hmm : eml_audio_mels_from_hz params.fmin
      ≤ eml_audio_mels_from_hz params.fmax := by
    unfold eml_audio_mels_from_hz
    have hx : (0 : ℝ) < 1 + params.fmin / 700 := by linarith
    have hlog := Real.logb_le_logb_of_le (by norm_num : (1 : ℝ) < 10) hx
      (by linarith : 1 + params.fmin / 700 ≤ 1 + params.fmax / 700)
    linarith
  have hstep : 0 ≤ (eml_audio_mels_from_hz params.fmax
      - eml_audio_mels_from_hz params.fmin) / ((params.n_mels : ℝ) + 1) :=
    div_nonneg (by linarith) (by positivity)
  have hmel : eml_audio_mels_from_hz params.fmin + (n : ℝ) *
        ((eml_audio_mels_from_hz params.fmax
          - eml_audio_mels_from_hz params.fmin) / ((params.n_mels : ℝ) + 1))
      ≤ eml_audio_mels_from_hz params.fmin + ((n + 1 : ℕ) : ℝ) *
        ((eml_audio_mels_from_hz params.fmax
          - eml_audio_mels_from_hz params.fmin) / ((params.n_mels : ℝ) + 1)) := by
    push_cast
    nlinarith
  have hhz := mels_to_hz_mono hmel
  rcases Nat.eq_zero_or_pos params.samplerate with hsr | hsr
  · rw [hsr]
    norm_num
  · have hsr' : (0 : ℝ) < (params.samplerate : ℝ) := by positivity
    exact mul_le_mul_of_nonneg_left ((div_le_div_right hsr').mpr hhz)
      (by positivity)

/-- C9 (amended): for every valid configuration the boundary bins satisfy
`left ≤ center ≤ right` for each filter and the whole boundary sequence is
non-decreasing (not in general strictly increasing: floors can coincide). -/
theorem mel_bin_bounds_ordered (params : EmlAudioMel)
    (hm : 0 < params.n_mels) (hf0 : 0 ≤ params.fmin)
    (hf1 : params.fmin < params.fmax)
    (hf2 : params.fmax ≤ (params.samplerate : ℝ) / 2) :
    (∀ m, 1 ≤ m → m ≤ params.n_mels →
      mel_bin params (m - 1) ≤ mel_bin params m ∧
      mel_bin params m ≤ mel_bin params (m + 1)) ∧
    (∀ n, n ≤ params.n_mels → mel_bin params n ≤ mel_bin params (n + 1)) := by
  have hstep := fun n => mel_bin_mono_step params hf0 hf1.le n
  refine ⟨fun m hm1 _ => ⟨?_, hstep m⟩, fun n _ => hstep n⟩
  have h := hstep (m - 1)
  rwa [Nat.sub_add_cancel hm1] at h

/-- Witness for `mel_bin_bounds_ordered` at a valid configuration. -/
theorem mel_bin_bounds_ordered_witness :
    0 < (3 : ℕ) ∧ (0 : ℝ) ≤ 0 ∧ (0 : ℝ) < 10500 ∧
    (10500 : ℝ) ≤ ((21000 : ℕ) : ℝ) / 2 ∧
    ((∀ m, 1 ≤ m → m ≤ (3 : ℕ) →
        mel_bin ⟨3, 0, 10500, 4, 21000⟩ (m - 1)
          ≤ mel_bin ⟨3, 0, 10500, 4, 21000⟩ m ∧
        mel_bin ⟨3, 0, 10500, 4, 21000⟩ m
          ≤ mel_bin ⟨3, 0, 10500, 4, 21000⟩ (m + 1)) ∧
      (∀ n, n ≤ (3 : ℕ) →
        mel_bin ⟨3, 0, 10500, 4, 21000⟩ n
          ≤ mel_bin ⟨3, 0, 10500, 4, 21000⟩ (n + 1))) :=
  ⟨by norm_num, le_refl 0, by norm_num, by norm_num,
    mel_bin_bounds_ordered ⟨3, 0, 10500, 4, 21000⟩ (by norm_num) (le_refl 0)
      (by norm_num) (by norm_num)⟩

/-- At the counterexample configuration the second boundary point maps to
Hz 700, whose bin `floor(5 * 700/21000)` collides with bin 0. -/
theorem mel_bin_collision_eval :
    mel_bin (⟨3, 0, 10500, 4, 21000⟩ : EmlAudioMel) 1 = 0 := by
  simp only [mel_bin, eml_audio_mels_from_hz, eml_audio_mels_to_hz]
  push_cast
  norm_num [Real.logb_one]
  have hexp : 2595 * Real.logb 10 16 / 4 / 2595 = Real.logb 10 2 := by
    have h4 : (16 : ℝ) = 2 ^ (4 : ℕ) := by norm_num
    rw [h4, Real.logb_pow]
    push_cast
    ring
  rw [hexp,
    Real.rpow_logb (by norm_num) (by norm_num) (by norm_num : (0 : ℝ) < 2)]
  norm_num

/-- C9 counterexample: a valid configuration (`n_mels = 3`, `fmin = 0`,
`fmax = 10500 = samplerate/2`, `n_fft = 4`) whose boundary sequence is not
strictly increasing: `bin(0) = bin(1) = 0`. -/
theorem mel_bin_not_strictly_increasing :
    0 < (3 : ℕ) ∧ (0 : ℝ) ≤ 0 ∧ (0 : ℝ) < 10500 ∧
    (10500 : ℝ) ≤ ((21000 : ℕ) : ℝ) / 2 ∧
    mel_bin ⟨3, 0, 10500, 4, 21000⟩ 0 = 0 ∧
    mel_bin ⟨3, 0, 10500, 4, 21000⟩ 1 = 0 ∧
    ¬ (mel_bin ⟨3, 0, 10500, 4, 21000⟩ 0
        < mel_bin ⟨3, 0, 10500, 4, 21000⟩ 1) := by
  have h0 : mel_bin (⟨3, 0, 10500, 4, 21000⟩ : EmlAudioMel) 0 = 0 :=
    mel_bin_zero_of_fmin_zero _ rfl
  have h1 := mel_bin_collision_eval
  refine ⟨by norm_num, le_refl 0, by norm_num, by norm_num, h0, h1, ?_⟩
  rw [h0, h1]
  exact lt_irrefl 0

end EmlAudio
